import Mathlib

/-!
Verification of the artificial-curiosity exploration engine.

The development shallowly embeds the repository's engine (`engine.py`:
`run_experiment`, `save_agent_data`, `load_agent_data`) together with the
value types and collaborators exercised by its test suite (`testing.py`):
`Experience`, `PriorityBasedMemory`, `ListBasedMemory`, and the terrain
`Map`.  The latter group lives in modules that are not part of the
repository snapshot, so those definitions are modelled from the design
specification and calibrated against the unit tests in `testing.py`.

Novelty scores are real-valued in the design; they are embedded as
rationals (`ℚ`), which keeps every ordering decidable and executable.
-/

namespace AC

/-- Modelled from the spec: `Experience` (module `experience`, absent from the
snapshot) is an immutable record of a `novelty` score together with an opaque
`payload` that is never inspected for ordering. -/
structure Experience (α : Type) where
  novelty : ℚ
  payload : α
deriving DecidableEq

/-- Modelled from the spec: `Experience.__lt__` compares solely on `novelty`. -/
def Experience.lt (a b : Experience α) : Bool :=
  a.novelty < b.novelty

/-- Modelled from the spec: `Experience.__le__` compares solely on `novelty`. -/
def Experience.le (a b : Experience α) : Bool :=
  a.novelty ≤ b.novelty

/-- Modelled from the spec: `Experience.__gt__` compares solely on `novelty`. -/
def Experience.gt (a b : Experience α) : Bool :=
  b.novelty < a.novelty

/-- Modelled from the spec: `Experience.__ge__` compares solely on `novelty`. -/
def Experience.ge (a b : Experience α) : Bool :=
  b.novelty ≤ a.novelty

/-- Modelled from the spec: `Experience.__eq__` compares solely on `novelty`;
payloads are ignored, so equal-novelty records compare equal. -/
def Experience.beq (a b : Experience α) : Bool :=
  a.novelty = b.novelty

/-- Modelled from the spec: `Experience.__ne__` is the negation of equality. -/
def Experience.bne (a b : Experience α) : Bool :=
  !(Experience.beq a b)

/-- Descending-novelty ordering on experiences: `a` precedes `b` when
`b.novelty ≤ a.novelty`. -/
def NovDesc (a b : Experience α) : Prop :=
  b.novelty ≤ a.novelty

instance : DecidableRel (@NovDesc α) := fun a b =>
  inferInstanceAs (Decidable (b.novelty ≤ a.novelty))

/-- Modelled from the spec: `PriorityBasedMemory` (module
`priority_based_memory`, absent from the snapshot) is a bounded priority
buffer of Experiences.  The contents are kept sorted by novelty descending,
which is exactly the order `as_list` must return. -/
structure PriorityBasedMemory (α : Type) where
  capacity : Nat
  data : List (Experience α)
deriving DecidableEq

/-- Insert an experience into a novelty-descending list, keeping the order.
An incoming experience is placed before existing entries of equal novelty, so
among tied novelties the oldest entry sits closest to the tail and is the
first evicted, as the spec's tie-break requires. -/
def insertDesc (e : Experience α) : List (Experience α) → List (Experience α)
  | [] => [e]
  | x :: xs => if x.novelty ≤ e.novelty then e :: x :: xs else x :: insertDesc e xs

/-- Modelled from the spec: a fresh `PriorityBasedMemory(capacity)` is empty. -/
def PriorityBasedMemory.empty (α : Type) (cap : Nat) : PriorityBasedMemory α :=
  ⟨cap, []⟩

/-- Modelled from the spec: `push` inserts the experience and, when the
resulting size exceeds `capacity`, evicts exactly the minimum-novelty entry
(the last element of the descending list).  No error is ever raised on
overflow: `push` is a total function. -/
def PriorityBasedMemory.push (m : PriorityBasedMemory α) (e : Experience α) :
    PriorityBasedMemory α :=
  let d := insertDesc e m.data
  ⟨m.capacity, if m.capacity < d.length then d.dropLast else d⟩

/-- Modelled from the spec: `as_list` returns the contents in novelty-descending
order and does not mutate the buffer. -/
def PriorityBasedMemory.as_list (m : PriorityBasedMemory α) : List (Experience α) :=
  m.data

/-- Modelled from the spec: `size` is the current number of stored entries. -/
def PriorityBasedMemory.size (m : PriorityBasedMemory α) : Nat :=
  m.data.length

/-- Modelled from the spec: `ListBasedMemory` (module `list_based_memory`,
absent from the snapshot) is a FIFO bounded queue of Experiences; `data` holds
the entries in insertion order, oldest first. -/
structure ListBasedMemory (α : Type) where
  capacity : Nat
  data : List (Experience α)
deriving DecidableEq

/-- Modelled from the spec: a fresh `ListBasedMemory(capacity)` is empty. -/
def ListBasedMemory.empty (α : Type) (cap : Nat) : ListBasedMemory α :=
  ⟨cap, []⟩

/-- Modelled from the spec: `push` appends the experience and, when the
resulting size exceeds `capacity`, evicts exactly the earliest-inserted entry
(the head).  No error is ever raised on overflow: `push` is total. -/
def ListBasedMemory.push (m : ListBasedMemory α) (e : Experience α) :
    ListBasedMemory α :=
  let d := m.data ++ [e]
  ⟨m.capacity, if m.capacity < d.length then d.tail else d⟩

/-- Modelled from the spec: `as_list` returns the contents in insertion order,
oldest first, without mutation. -/
def ListBasedMemory.as_list (m : ListBasedMemory α) : List (Experience α) :=
  m.data

/-- Modelled from the spec: `size` is the current number of stored entries. -/
def ListBasedMemory.size (m : ListBasedMemory α) : Nat :=
  m.data.length

/-- Insertion sort by descending novelty, folding insertions from the left the
way the memory receives pushes. -/
def insSort (xs : List (Experience α)) : List (Experience α) :=
  xs.foldl (fun acc e => insertDesc e acc) []

/-- Modelled from the spec: the failure raised by patch extraction when the
field-of-view window would extend past an edge of the grid. -/
inductive OutOfBoundsError : Type
  | oob
deriving DecidableEq

/-- Modelled from the spec: the terrain `Map` (module `map`, absent from the
snapshot) owns a grid of known `width` and `height`, a fixed field-of-view
edge `fov`, and a `grains` partition factor, all fixed at construction and
read-only thereafter. -/
structure Map where
  width : Int
  height : Int
  fov : Int
  grains : Nat
deriving DecidableEq

/-- Modelled from the spec: `extract_patch` (exercised as `get_fov` by the map
tests) returns the `fov × fov` window at the position, failing with
`OutOfBoundsError` exactly when the window would extend past an edge, i.e.
when the position is closer than `fov` to an edge.  The margin is calibrated
against `MapTest.test_map_exceptions`: a coordinate below `fov`, or within
`fov` of the far edge, raises.  The patch content is opaque to every claim, so
the accepted position stands for it. -/
def Map.extract_patch (m : Map) (p : Int × Int) :
    Except OutOfBoundsError (Int × Int) :=
  if p.1 < m.fov ∨ p.2 < m.fov ∨ m.width < p.1 + m.fov ∨ m.height < p.2 + m.fov
  then Except.error OutOfBoundsError.oob
  else Except.ok p

/-- Modelled from the spec: `get_fov` is the map method the tests call for
patch extraction. -/
def Map.get_fov (m : Map) (p : Int × Int) : Except OutOfBoundsError (Int × Int) :=
  m.extract_patch p

/-- Modelled from the spec: `is_valid` accepts a position when a patch can be
extracted there and a safety margin keeps a further move legal.  The exact
margin constants are an open design parameter in the spec; they are calibrated
against the vectors of `MapTest.test_directions`. -/
def Map.is_valid (m : Map) (p : Int × Int) : Bool :=
  decide (m.fov ≤ p.1 ∧ p.1 + m.fov < m.width ∧ m.fov ≤ p.2
    ∧ p.2 + m.fov ≤ m.height)

/-- Modelled from the spec: `clean_directions` walks the candidate list and
collects `is_valid` of each entry into a fresh boolean list.  The `Map` is
read-only and the function returns only the new list, so freedom from
mutation is inherent in the embedding. -/
def Map.clean_directions (m : Map) : List (Int × Int) → List Bool
  | [] => []
  | p :: ps => m.is_valid p :: m.clean_directions ps

/-- The 800 × 534 terrain with fov 30 and 4 grains built by the map tests. -/
def testMap : Map :=
  ⟨800, 534, 30, 4⟩

/-- Decimal digit characters of a natural number, most significant first, as
csv.writer renders a nonzero integer field via `str`. -/
def natDigitChars (n : Nat) : List Char :=
  ((Nat.digits 10 n).map (fun d => Char.ofNat (d + 48))).reverse

/-- Decimal rendering of a natural number, `"0"` included, matching `str`. -/
def natChars (n : Nat) : List Char :=
  if n = 0 then [Char.ofNat 48] else natDigitChars n

/-- Decimal rendering of an integer, a minus sign preceding the digits for
negatives, matching `str` on the coordinates the engine writes. -/
def intChars (i : Int) : List Char :=
  if i < 0 then Char.ofNat 45 :: natChars i.natAbs else natChars i.natAbs

/-- Numeric value of a decimal digit character, `none` on anything else,
mirroring the digit handling of Python's `int`. -/
def digitVal (c : Char) : Option Nat :=
  if 48 ≤ c.toNat ∧ c.toNat ≤ 57 then some (c.toNat - 48) else none

/-- Option-valued map over a list, stopping at the first failure, the way a
Python loop raising on a bad element behaves. -/
def optMapList {β γ : Type} (g : β → Option γ) : List β → Option (List γ)
  | [] => some []
  | b :: bs =>
    match g b, optMapList g bs with
    | some c, some cs => some (c :: cs)
    | _, _ => none

/-- Parse of a nonempty all-digit cell as a natural number, mirroring `int`
on the nonnegative decimal strings the engine produces. -/
def parseNatChars : List Char → Option Nat
  | [] => none
  | c :: cs =>
    (optMapList digitVal (c :: cs)).map (fun ds => Nat.ofDigits 10 ds.reverse)

/-- Parse of an optionally minus-signed decimal cell as an integer, mirroring
`int` on the strings the engine writes; a malformed cell is `none`, embedding
the exception `int` raises. -/
def parseIntChars (cs : List Char) : Option Int :=
  if cs.head? = some (Char.ofNat 45)
  then (parseNatChars cs.tail).map (fun n : Nat => -(n : Int))
  else (parseNatChars cs).map (fun n : Nat => (n : Int))

/-- Rows written by `save_agent_data` for one agent when `save` is true
(engine.py lines 212-223): the header row with cells `x` and `y`, then one
row per history entry, in history order.  csv.writer renders an integer field
as its decimal string; such cells contain no delimiter, quote or newline, so
the csv layer transports them verbatim and the file is embedded as its list
of rows of cells. -/
def save_agent_rows (history : List (Int × Int)) : List (List (List Char)) :=
  [[Char.ofNat 120], [Char.ofNat 121]]
    :: history.map (fun p => [intChars p.1, intChars p.2])

/-- Row decoding performed by `load_agent_data` (engine.py lines 246-263):
every row after the header is converted to a tuple of ints, in order;
`int` raising on a malformed cell is embedded as `none`. -/
def load_agent_rows (rows : List (List (List Char))) :
    Option (List (List Int)) :=
  optMapList (fun row => optMapList parseIntChars row) (rows.drop 1)

/-- Concrete push stream for the capacity-5 scenario of the memory tests:
novelties 0,1,2,3,4,5 with an opaque payload. -/
def memStream : List (Experience Unit) :=
  (List.range 6).map (fun i => ⟨(i : ℚ), ()⟩)

/-- Shallow model of an Agent as the engine loop drives it: a current state
of type `σ` and the `step` behaviour, where `Except.error` embeds a raised
exception (engine.py line 170 calls `agent.step()` inside try/except). -/
structure MAgent (σ ε : Type) where
  state : σ
  stepf : σ → Except ε σ

/-- Inner loop of `run_experiment` for one agent (engine.py lines 167-181):
starting at iteration index `i` with `n` iterations remaining, calls `step`
repeatedly; yields the iteration indices of the completed steps, in order,
together with either the final state or the (iteration index, exception)
pair at which stepping stopped. -/
def agentLoop (f : σ → Except ε σ) :
    Nat → Nat → σ → List Nat × Except (Nat × ε) σ
  | _, 0, s => ([], Except.ok s)
  | i, n + 1, s =>
    match f s with
    | Except.error e => ([], Except.error (i, e))
    | Except.ok s2 =>
      let r := agentLoop f (i + 1) n s2
      (i :: r.1, r.2)

/-- Observable outcome of `run_experiment` (engine.py lines 166-188): the
ordered trace of completed steps as (agent index, iteration index) pairs,
the failure report printed before the early return when a step raised, and
whether the run reached the `plot_paths` and `save_agent_data` calls. -/
structure ExpRun (ε : Type) where
  trace : List (Nat × Nat)
  failure : Option (Nat × Nat × ε)
  plotsInvoked : Bool
  saveInvoked : Bool
deriving DecidableEq

/-- Outer loop of `run_experiment` over the agent list (engine.py lines
166-188): agents are stepped one after the other, `idx` being the index of
the first agent of `agents` in the original list.  A step exception records
the printed report (step index, agent index, error) and returns at once,
skipping the plotting and saving calls; when every agent completes all its
iterations, `plot_paths` and `save_agent_data` are reached. -/
def expLoop (iters : Nat) : List (MAgent σ ε) → Nat → ExpRun ε
  | [], _ => ⟨[], none, true, true⟩
  | a :: rest, idx =>
    match agentLoop a.stepf 0 iters a.state with
    | (tr, Except.error ie) =>
      ⟨tr.map (fun j => (idx, j)), some (ie.1, idx, ie.2), false, false⟩
    | (tr, Except.ok _) =>
      let r := expLoop iters rest (idx + 1)
      ⟨tr.map (fun j => (idx, j)) ++ r.trace, r.failure,
        r.plotsInvoked, r.saveInvoked⟩

/-- Model of `run_experiment` (engine.py lines 116-188): asserts its
preconditions at entry (lines 153-154), builds one agent per
(motivation, position) pair through the Agent constructor `mkAgent`
(lines 159-160), then runs the stepping loop.  An assertion failure is
embedded as `Except.error`; the `show` display flag plays no further role in
the control flow and is omitted. -/
def run_experiment {μ ρ σ ε : Type} (motivation_lst : List μ)
    (position_lst : List ρ) (mkAgent : μ → ρ → MAgent σ ε)
    (iterations : Nat) (saveGraph saveLocation : Bool)
    (dirname : Option String) : Except String (ExpRun ε) :=
  if motivation_lst.length = position_lst.length then
    if (saveGraph = false ∧ saveLocation = false) ∨ dirname.isSome = true then
      Except.ok (expLoop iterations
        ((motivation_lst.zip position_lst).map (fun mp => mkAgent mp.1 mp.2))
        0)
    else Except.error "AssertionError"
  else Except.error "AssertionError"

/-- Trace of `numAgents` agents, the first labelled `idx`, each completing
all `iters` iterations, one agent finishing entirely before the next
begins. -/
def fullTrace (iters : Nat) : Nat → Nat → List (Nat × Nat)
  | 0, _ => []
  | n + 1, idx =>
    (List.range iters).map (fun i => (idx, i)) ++ fullTrace iters n (idx + 1)

/-- An agent whose very first step raises. -/
def failingAgent : MAgent Unit Unit :=
  ⟨(), fun _ => Except.error ()⟩

/-- A pair of agents of which the first always succeeds and the second
raises at its second step. -/
def mixedAgents : List (MAgent Nat Nat) :=
  [⟨0, fun s => Except.ok (s + 1)⟩,
   ⟨0, fun s => if s < 1 then Except.ok (s + 1) else Except.error 7⟩]

/-- A pair of agents whose steps always succeed. -/
def steadyAgents : List (MAgent Nat Unit) :=
  [⟨0, fun s => Except.ok (s + 1)⟩, ⟨5, fun s => Except.ok (s + 2)⟩]

/-- Insertion into a descending list grows the length by one. -/
theorem length_insertDesc (e : Experience α) (l : List (Experience α)) :
    (insertDesc e l).length = l.length + 1 := by
  induction l with
  | nil => rfl
  | cons x xs ih =>
    by_cases h : x.novelty ≤ e.novelty <;> simp [insertDesc, h, ih]

/-- Insertion into a descending list is a permutation of consing. -/
theorem insertDesc_perm (e : Experience α) (l : List (Experience α)) :
    (insertDesc e l).Perm (e :: l) := by
  induction l with
  | nil => rfl
  | cons x xs ih =>
    by_cases h : x.novelty ≤ e.novelty
    · simp [insertDesc, h]
    · simp only [insertDesc, h, if_false]
      exact (ih.cons x).trans (List.Perm.swap e x xs)

/-- Insertion preserves the descending-novelty invariant. -/
theorem insertDesc_sorted (e : Experience α) {l : List (Experience α)}
    (h : l.Pairwise NovDesc) : (insertDesc e l).Pairwise NovDesc := by
  induction l with
  | nil => simp [insertDesc, NovDesc]
  | cons x xs ih =>
    rcases List.pairwise_cons.mp h with ⟨hx, hxs⟩
    by_cases hc : x.novelty ≤ e.novelty
    · simp only [insertDesc, hc, if_true]
      refine List.pairwise_cons.mpr ⟨?_, h⟩
      intro b hb
      rcases List.mem_cons.mp hb with rfl | hb
      · exact hc
      · exact le_trans (hx b hb) hc
    · simp only [insertDesc, hc, if_false]
      refine List.pairwise_cons.mpr ⟨?_, ih hxs⟩
      intro b hb
      have hb2 := (insertDesc_perm e xs).mem_iff.mp hb
      rcases List.mem_cons.mp hb2 with rfl | hb2
      · exact le_of_lt (lt_of_not_le hc)
      · exact hx b hb2

/-- Truncating before or after an insertion gives the same first `c` entries. -/
theorem insertDesc_take (e : Experience α) (l : List (Experience α)) (c : Nat) :
    (insertDesc e (l.take c)).take c = (insertDesc e l).take c := by
  induction l generalizing c with
  | nil => simp
  | cons x xs ih =>
    cases c with
    | zero => simp
    | succ c =>
      by_cases h : x.novelty ≤ e.novelty
      · simp only [insertDesc, h, if_true, List.take_succ_cons]
        cases c with
        | zero => rfl
        | succ c2 =>
          have hmin : c2 ⊓ (c2 + 1) = c2 := by omega
          simp [List.take_take, hmin]
      · simp [insertDesc, h, ih c]

/-- Pushing preserves the capacity field. -/
theorem priority_capacity_push (m : PriorityBasedMemory α)
    (e : Experience α) : (m.push e).capacity = m.capacity := rfl

/-- Below capacity, a push keeps the inserted list; at capacity, it truncates
to the first `capacity` entries (dropping the minimum-novelty tail). -/
theorem PriorityBasedMemory.push_data (m : PriorityBasedMemory α)
    (e : Experience α) (h : m.data.length ≤ m.capacity) :
    (m.push e).data = (insertDesc e m.data).take m.capacity := by
  show (if m.capacity < (insertDesc e m.data).length
      then (insertDesc e m.data).dropLast else insertDesc e m.data)
    = (insertDesc e m.data).take m.capacity
  rw [length_insertDesc]
  by_cases hc : m.capacity < m.data.length + 1
  · have hcap : m.data.length = m.capacity := by omega
    rw [if_pos hc, List.dropLast_eq_take, length_insertDesc, hcap,
      Nat.add_sub_cancel]
  · rw [if_neg hc]
    exact (List.take_of_length_le (by rw [length_insertDesc]; omega)).symm

/-- Folding pushes over a priority memory computes the first `capacity` entries
of the insertion-sorted stream. -/
theorem foldl_push_data (cap : Nat) (xs : List (Experience α)) :
    ∀ l : List (Experience α),
      (xs.foldl PriorityBasedMemory.push ⟨cap, l.take cap⟩).data
        = (xs.foldl (fun acc e => insertDesc e acc) l).take cap := by
  induction xs with
  | nil => intro l; rfl
  | cons e xs ih =>
    intro l
    have hlen : (l.take cap).length ≤ cap := by
      rw [List.length_take]; omega
    have h1 : PriorityBasedMemory.push ⟨cap, l.take cap⟩ e
        = (⟨cap, (insertDesc e l).take cap⟩ : PriorityBasedMemory α) := by
      have h2 := PriorityBasedMemory.push_data ⟨cap, l.take cap⟩ e hlen
      have h3 : (PriorityBasedMemory.push ⟨cap, l.take cap⟩ e)
          = (⟨(PriorityBasedMemory.push ⟨cap, l.take cap⟩ e).capacity,
              (PriorityBasedMemory.push ⟨cap, l.take cap⟩ e).data⟩ :
            PriorityBasedMemory α) := rfl
      rw [h3, h2, priority_capacity_push, insertDesc_take]
    rw [List.foldl_cons, List.foldl_cons, h1, ih (insertDesc e l)]

/-- Contents of a priority memory after any push sequence from empty. -/
theorem priority_data_eq (cap : Nat) (xs : List (Experience α)) :
    (xs.foldl PriorityBasedMemory.push (PriorityBasedMemory.empty α cap)).data
      = (insSort xs).take cap := by
  have h := foldl_push_data cap xs []
  simpa [PriorityBasedMemory.empty, insSort] using h

/-- Folding insertions permutes the inputs onto the accumulator. -/
theorem foldl_insert_perm (xs l : List (Experience α)) :
    (xs.foldl (fun acc e => insertDesc e acc) l).Perm (xs ++ l) := by
  induction xs generalizing l with
  | nil => simp
  | cons e xs ih =>
    simp only [List.foldl_cons, List.cons_append]
    exact (ih (insertDesc e l)).trans
      ((List.Perm.append_left xs (insertDesc_perm e l)).trans List.perm_middle)

/-- Insertion sort permutes its input. -/
theorem insSort_perm (xs : List (Experience α)) : (insSort xs).Perm xs := by
  simpa [insSort] using foldl_insert_perm xs []

/-- Folding insertions onto a sorted accumulator stays sorted. -/
theorem foldl_insert_sorted (xs : List (Experience α)) :
    ∀ l : List (Experience α), l.Pairwise NovDesc →
      (xs.foldl (fun acc e => insertDesc e acc) l).Pairwise NovDesc := by
  induction xs with
  | nil => intro l h; exact h
  | cons e xs ih =>
    intro l h
    exact ih (insertDesc e l) (insertDesc_sorted e h)

/-- The insertion-sorted stream is in descending novelty order. -/
theorem insSort_sorted (xs : List (Experience α)) :
    (insSort xs).Pairwise NovDesc :=
  foldl_insert_sorted xs [] (List.Pairwise.nil)

/-- Membership in the first `c` entries of `A ++ e :: B`, when `e` does not
occur in `A`, is exactly the statement that `e` sits at an index below `c`. -/
theorem mem_take_middle_iff (e : Experience α) (A B : List (Experience α))
    (c : Nat) (heA : e ∉ A) :
    e ∈ (A ++ e :: B).take c ↔ A.length < c := by
  constructor
  · intro hmem
    by_contra hle
    rw [List.take_append_eq_append_take] at hmem
    have h0 : c - A.length = 0 := by omega
    rw [h0] at hmem
    simp only [List.take_zero, List.append_nil] at hmem
    exact heA (List.take_subset c A hmem)
  · intro hlt
    rw [List.take_append_eq_append_take,
      List.take_of_length_le (le_of_lt hlt)]
    have h1 : ∃ n, c - A.length = n + 1 := ⟨c - A.length - 1, by omega⟩
    obtain ⟨n, hn⟩ := h1
    rw [hn, List.take_succ_cons]
    exact List.mem_append_right A (List.mem_cons_self e _)

/-- Pushing preserves the capacity field of a FIFO memory. -/
theorem list_capacity_push (m : ListBasedMemory α)
    (e : Experience α) : (m.push e).capacity = m.capacity := rfl

/-- Folding pushes over a FIFO memory keeps the last `capacity` entries of the
stream, in order. -/
theorem foldl_lpush_data (cap : Nat) (xs : List (Experience α)) :
    ∀ l : List (Experience α), l.length ≤ cap →
      (xs.foldl ListBasedMemory.push ⟨cap, l⟩).data
        = (l ++ xs).drop ((l ++ xs).length - cap) := by
  induction xs with
  | nil =>
    intro l h
    have h0 : l.length - cap = 0 := by omega
    simp [h0]
  | cons e xs ih =>
    intro l h
    rw [List.foldl_cons]
    by_cases hlt : l.length + 1 ≤ cap
    · have hpush : ListBasedMemory.push ⟨cap, l⟩ e
          = (⟨cap, l ++ [e]⟩ : ListBasedMemory α) := by
        show (⟨cap, if cap < (l ++ [e]).length then (l ++ [e]).tail
            else l ++ [e]⟩ : ListBasedMemory α) = _
        rw [if_neg (by simp only [List.length_append, List.length_cons,
          List.length_nil]; omega)]
      rw [hpush, ih (l ++ [e]) (by simp only [List.length_append,
        List.length_cons, List.length_nil]; omega)]
      simp [List.append_assoc]
    · have hcap : l.length = cap := by omega
      have hpush : ListBasedMemory.push ⟨cap, l⟩ e
          = (⟨cap, (l ++ [e]).drop 1⟩ : ListBasedMemory α) := by
        show (⟨cap, if cap < (l ++ [e]).length then (l ++ [e]).tail
            else l ++ [e]⟩ : ListBasedMemory α) = _
        rw [if_pos (by simp only [List.length_append, List.length_cons,
          List.length_nil]; omega), List.drop_one]
      rw [hpush, ih ((l ++ [e]).drop 1) (by simp only [List.length_drop,
        List.length_append, List.length_cons, List.length_nil]; omega)]
      have hsplit : (l ++ [e]).drop 1 ++ xs = ((l ++ [e]) ++ xs).drop 1 :=
        (List.drop_append_of_le_length (by simp only [List.length_append,
          List.length_cons, List.length_nil]; omega)).symm
      rw [hsplit, List.drop_drop]
      have hassoc : (l ++ [e]) ++ xs = l ++ (e :: xs) := by
        simp [List.append_assoc]
      rw [hassoc]
      congr 1
      simp only [List.length_drop, List.length_append, List.length_cons,
        List.length_nil]
      omega

/-- Contents of a FIFO memory after any push sequence from empty. -/
theorem list_data_eq (cap : Nat) (xs : List (Experience α)) :
    (xs.foldl ListBasedMemory.push (ListBasedMemory.empty α cap)).data
      = xs.drop (xs.length - cap) := by
  have h := foldl_lpush_data cap xs [] (by simp)
  simpa [ListBasedMemory.empty] using h

/-- C3: for a `PriorityBasedMemory` of any positive capacity, after pushing
`capacity + k` Experiences with pairwise distinct novelties in any insertion
order, the surviving contents are exactly the `capacity` Experiences with the
highest novelties seen so far (each eviction removes the minimum-novelty
entry): the buffer holds exactly `capacity` entries, and an input survives
precisely when fewer than `capacity` inputs carry a strictly higher novelty. -/
theorem priority_memory_keeps_highest {α : Type} (cap k : Nat) (hcap : 0 < cap)
    (xs : List (Experience α)) (hlen : xs.length = cap + k)
    (hdist : xs.Pairwise (fun a b => a.novelty ≠ b.novelty)) :
    (xs.foldl PriorityBasedMemory.push (PriorityBasedMemory.empty α cap)).size
        = cap
    ∧ ∀ e ∈ xs,
        (e ∈ (xs.foldl PriorityBasedMemory.push
              (PriorityBasedMemory.empty α cap)).as_list
          ↔ (xs.filter (fun x => e.novelty < x.novelty)).length < cap) := by
  have hdata := priority_data_eq cap xs
  have hperm := insSort_perm xs
  have hsort := insSort_sorted xs
  have hlenS : (insSort xs).length = cap + k := by rw [hperm.length_eq, hlen]
  constructor
  · show (xs.foldl PriorityBasedMemory.push
        (PriorityBasedMemory.empty α cap)).data.length = cap
    rw [hdata, List.length_take, hlenS]
    exact inf_eq_left.mpr (Nat.le_add_right cap k)
  · intro e he
    have heS : e ∈ insSort xs := hperm.mem_iff.mpr he
    obtain ⟨A, B, hAB⟩ := List.append_of_mem heS
    have hdistS : (insSort xs).Pairwise
        (fun a b : Experience α => a.novelty ≠ b.novelty) :=
      (hperm.pairwise_iff (fun hxy => hxy.symm)).mpr hdist
    rw [hAB] at hsort hdistS
    rw [List.pairwise_append] at hsort hdistS
    obtain ⟨hsA, hsEB, hsAcross⟩ := hsort
    obtain ⟨hdA, hdEB, hdAcross⟩ := hdistS
    have hAgt : ∀ a ∈ A, e.novelty < a.novelty := by
      intro a ha
      exact lt_of_le_of_ne (hsAcross a ha e (List.mem_cons_self e B))
        (Ne.symm (hdAcross a ha e (List.mem_cons_self e B)))
    have hBlt : ∀ b ∈ B, ¬ e.novelty < b.novelty := by
      intro b hb
      exact not_lt.mpr ((List.pairwise_cons.mp hsEB).1 b hb)
    have heA : e ∉ A := by
      intro hx
      exact (hdAcross e hx e (List.mem_cons_self e B)) rfl
    have hfS : ((insSort xs).filter
        (fun x => e.novelty < x.novelty)).length = A.length := by
      rw [hAB, List.filter_append]
      have h1 : A.filter (fun x => e.novelty < x.novelty) = A := by
        rw [List.filter_eq_self]
        intro a ha
        exact decide_eq_true (hAgt a ha)
      have h2 : (e :: B).filter (fun x => e.novelty < x.novelty) = [] := by
        rw [List.filter_eq_nil_iff]
        intro b hb
        rcases List.mem_cons.mp hb with rfl | hb2
        · simp
        · simp [hBlt b hb2]
      rw [h1, h2, List.append_nil]
    have hfx : (xs.filter (fun x => e.novelty < x.novelty)).length
        = A.length :=
      ((hperm.filter
        (fun x => decide (e.novelty < x.novelty))).length_eq).symm.trans hfS
    show e ∈ (xs.foldl PriorityBasedMemory.push
        (PriorityBasedMemory.empty α cap)).data ↔ _
    rw [hdata, hAB, mem_take_middle_iff e A B cap heA, hfx]

/-- Witness for C3: pushing novelties 0..5 into a capacity-5 priority buffer
keeps the five highest; in particular no surviving entry has novelty 0. -/
theorem priority_memory_keeps_highest_witness :
    ((0:Nat) < 5 ∧ memStream.length = 5 + 1
      ∧ memStream.Pairwise (fun a b => a.novelty ≠ b.novelty))
    ∧ ((memStream.foldl PriorityBasedMemory.push
          (PriorityBasedMemory.empty Unit 5)).size = 5
      ∧ ∀ e ∈ memStream,
          (e ∈ (memStream.foldl PriorityBasedMemory.push
                (PriorityBasedMemory.empty Unit 5)).as_list
            ↔ (memStream.filter
                (fun x => e.novelty < x.novelty)).length < 5))
    ∧ ∀ e ∈ (memStream.foldl PriorityBasedMemory.push
          (PriorityBasedMemory.empty Unit 5)).as_list, e.novelty ≠ 0 :=
  ⟨⟨by decide, by decide, by decide⟩,
    priority_memory_keeps_highest 5 1 (by decide) memStream
      (by decide) (by decide),
    by decide⟩

/-- C4: for a `ListBasedMemory` of any positive capacity, pushing
`capacity + k` Experiences of novelties `0 .. capacity+k-1` in increasing
order leaves exactly the most recently pushed entries, novelties
`k .. capacity+k-1`, and `as_list` returns them in insertion order, oldest
first: each eviction removed the earliest-inserted surviving entry. -/
theorem list_memory_fifo {α : Type} (cap k : Nat) (hcap : 0 < cap) (pay : α) :
    (((List.range (cap + k)).map (fun i : ℕ => Experience.mk (i : ℚ) pay)).foldl
        ListBasedMemory.push (ListBasedMemory.empty α cap)).as_list
      = (List.range cap).map (fun i : ℕ => Experience.mk ((k + i : Nat) : ℚ) pay) := by
  show (((List.range (cap + k)).map
      (fun i : ℕ => Experience.mk (i : ℚ) pay)).foldl
      ListBasedMemory.push (ListBasedMemory.empty α cap)).data = _
  rw [list_data_eq, List.length_map, List.length_range]
  have hsub : cap + k - cap = k := by omega
  rw [hsub, ← List.map_drop, Nat.add_comm cap k, List.range_add]
  have hdrop := List.drop_left (List.range k)
    ((List.range cap).map (fun x => k + x))
  rw [List.length_range] at hdrop
  rw [hdrop, List.map_map]
  rfl

/-- Witness for C4: pushing novelties 0..5 into a capacity-5 FIFO buffer
leaves novelties 1..5 in insertion order. -/
theorem list_memory_fifo_witness :
    ((0:Nat) < 5)
    ∧ (((List.range (5 + 1)).map (fun i : ℕ => Experience.mk (i : ℚ) ())).foldl
          ListBasedMemory.push (ListBasedMemory.empty Unit 5)).as_list
        = (List.range 5).map (fun i : ℕ => Experience.mk ((1 + i : Nat) : ℚ) ()) :=
  ⟨by decide, list_memory_fifo 5 1 (by decide) ()⟩

/-- Folding pushes never changes the capacity of a priority memory. -/
theorem priority_foldl_capacity {α : Type} (cap : Nat)
    (xs : List (Experience α)) :
    (xs.foldl PriorityBasedMemory.push
      (PriorityBasedMemory.empty α cap)).capacity = cap := by
  suffices h : ∀ m : PriorityBasedMemory α,
      (xs.foldl PriorityBasedMemory.push m).capacity = m.capacity by
    exact h (PriorityBasedMemory.empty α cap)
  induction xs with
  | nil => intro m; rfl
  | cons e xs ih =>
    intro m
    rw [List.foldl_cons, ih (m.push e), priority_capacity_push]

/-- Folding pushes never changes the capacity of a FIFO memory. -/
theorem list_foldl_capacity {α : Type} (cap : Nat)
    (xs : List (Experience α)) :
    (xs.foldl ListBasedMemory.push
      (ListBasedMemory.empty α cap)).capacity = cap := by
  suffices h : ∀ m : ListBasedMemory α,
      (xs.foldl ListBasedMemory.push m).capacity = m.capacity by
    exact h (ListBasedMemory.empty α cap)
  induction xs with
  | nil => intro m; rfl
  | cons e xs ih =>
    intro m
    rw [List.foldl_cons, ih (m.push e), list_capacity_push]

/-- One push onto a within-capacity priority memory grows the size by one,
clipped at capacity. -/
theorem priority_size_push (m : PriorityBasedMemory α)
    (e : Experience α) (h : m.size ≤ m.capacity) :
    (m.push e).size = min (m.size + 1) m.capacity := by
  show (m.push e).data.length = _
  rw [PriorityBasedMemory.push_data m e h, List.length_take, length_insertDesc]
  show m.capacity ⊓ (m.data.length + 1) = min (m.data.length + 1) m.capacity
  omega

/-- One push onto a within-capacity FIFO memory grows the size by one,
clipped at capacity. -/
theorem list_size_push (m : ListBasedMemory α)
    (e : Experience α) (h : m.size ≤ m.capacity) :
    (m.push e).size = min (m.size + 1) m.capacity := by
  have h2 : m.data.length ≤ m.capacity := h
  show (if m.capacity < (m.data ++ [e]).length then (m.data ++ [e]).tail
      else m.data ++ [e]).length = _
  by_cases hc : m.capacity < (m.data ++ [e]).length
  · rw [if_pos hc, ← List.drop_one, List.length_drop]
    rw [List.length_append, List.length_cons, List.length_nil] at hc ⊢
    show _ = min (m.data.length + 1) m.capacity
    omega
  · rw [if_neg hc]
    rw [List.length_append, List.length_cons, List.length_nil] at hc ⊢
    show _ = min (m.data.length + 1) m.capacity
    omega

/-- C7: for both Memory variants with positive capacity and any finite push
sequence, `size ≤ capacity` holds after every push (the sequence `xs` is
arbitrary, so the bound holds at every intermediate state), and one further
push yields size `min (size + 1) capacity`: below capacity nothing is evicted,
at capacity exactly one existing entry is evicted for the one inserted.
`push` is a total function in both variants, so no error is raised on
overflow. -/
theorem memory_capacity_invariant {α : Type} (cap : Nat) (hcap : 0 < cap)
    (xs : List (Experience α)) (e : Experience α) :
    (xs.foldl PriorityBasedMemory.push (PriorityBasedMemory.empty α cap)).size
        ≤ cap
    ∧ (xs.foldl ListBasedMemory.push (ListBasedMemory.empty α cap)).size ≤ cap
    ∧ ((xs.foldl PriorityBasedMemory.push
          (PriorityBasedMemory.empty α cap)).push e).size
        = min ((xs.foldl PriorityBasedMemory.push
            (PriorityBasedMemory.empty α cap)).size + 1) cap
    ∧ ((xs.foldl ListBasedMemory.push
          (ListBasedMemory.empty α cap)).push e).size
        = min ((xs.foldl ListBasedMemory.push
            (ListBasedMemory.empty α cap)).size + 1) cap := by
  have hpc := priority_foldl_capacity (α := α) cap xs
  have hlc := list_foldl_capacity (α := α) cap xs
  have hp : (xs.foldl PriorityBasedMemory.push
      (PriorityBasedMemory.empty α cap)).size ≤ cap := by
    show (xs.foldl PriorityBasedMemory.push
      (PriorityBasedMemory.empty α cap)).data.length ≤ cap
    rw [priority_data_eq, List.length_take]
    omega
  have hl : (xs.foldl ListBasedMemory.push
      (ListBasedMemory.empty α cap)).size ≤ cap := by
    show (xs.foldl ListBasedMemory.push
      (ListBasedMemory.empty α cap)).data.length ≤ cap
    rw [list_data_eq, List.length_drop]
    omega
  refine ⟨hp, hl, ?_, ?_⟩
  · rw [priority_size_push _ e (by rw [hpc]; exact hp), hpc]
  · rw [list_size_push _ e (by rw [hlc]; exact hl), hlc]

/-- Witness for C7: the capacity-5 scenario, pushing novelties 0..5 and then
one more experience of novelty 9. -/
theorem memory_capacity_invariant_witness :
    ((0:Nat) < 5)
    ∧ ((memStream.foldl PriorityBasedMemory.push
          (PriorityBasedMemory.empty Unit 5)).size ≤ 5
      ∧ (memStream.foldl ListBasedMemory.push
          (ListBasedMemory.empty Unit 5)).size ≤ 5
      ∧ ((memStream.foldl PriorityBasedMemory.push
            (PriorityBasedMemory.empty Unit 5)).push ⟨9, ()⟩).size
          = min ((memStream.foldl PriorityBasedMemory.push
              (PriorityBasedMemory.empty Unit 5)).size + 1) 5
      ∧ ((memStream.foldl ListBasedMemory.push
            (ListBasedMemory.empty Unit 5)).push ⟨9, ()⟩).size
          = min ((memStream.foldl ListBasedMemory.push
              (ListBasedMemory.empty Unit 5)).size + 1) 5) :=
  ⟨by decide, memory_capacity_invariant 5 (by decide) memStream ⟨9, ()⟩⟩

/-- C8: every comparison operator on `Experience` is determined exclusively by
the `novelty` field, whatever the payloads: `<`, `≤`, `>`, `≥`, `==`, `!=`
coincide with the corresponding comparison of novelties, so for `a < b` the
records compare strictly and unequal, and records of equal novelty with
different payloads compare equal. -/
theorem experience_ordering {α : Type} (a b : ℚ) (p q r : α) :
    (Experience.lt ⟨a, p⟩ ⟨b, q⟩ = true ↔ a < b)
    ∧ (Experience.le ⟨a, p⟩ ⟨b, q⟩ = true ↔ a ≤ b)
    ∧ (Experience.gt ⟨a, p⟩ ⟨b, q⟩ = true ↔ b < a)
    ∧ (Experience.ge ⟨a, p⟩ ⟨b, q⟩ = true ↔ b ≤ a)
    ∧ (Experience.beq ⟨a, p⟩ ⟨b, q⟩ = true ↔ a = b)
    ∧ (Experience.bne ⟨a, p⟩ ⟨b, q⟩ = true ↔ a ≠ b)
    ∧ Experience.beq ⟨a, p⟩ ⟨a, r⟩ = true := by
  simp [Experience.lt, Experience.le, Experience.gt, Experience.ge,
    Experience.beq, Experience.bne]

/-- C9: patch extraction fails with an `OutOfBoundsError` exactly when the
fov-sized window at the position would extend past an edge of the grid; on
the 800 × 534 map with fov 30 the boundary positions (0,0), (29,29) and
(width-1, height-1) raise, while (width/2, height/2) and (30,30) succeed. -/
theorem map_extract_bounds :
    (∀ (m : Map) (p : Int × Int),
        (m.extract_patch p).isOk = true
          ↔ (m.fov ≤ p.1 ∧ m.fov ≤ p.2 ∧ p.1 + m.fov ≤ m.width
              ∧ p.2 + m.fov ≤ m.height))
    ∧ (testMap.extract_patch (0, 0)).isOk = false
    ∧ (testMap.extract_patch (29, 29)).isOk = false
    ∧ (testMap.extract_patch (799, 533)).isOk = false
    ∧ (testMap.extract_patch (400, 267)).isOk = true
    ∧ (testMap.extract_patch (30, 30)).isOk = true := by
  refine ⟨?_, by decide, by decide, by decide, by decide, by decide⟩
  intro m p
  unfold Map.extract_patch
  by_cases h : p.1 < m.fov ∨ p.2 < m.fov ∨ m.width < p.1 + m.fov
      ∨ m.height < p.2 + m.fov
  · rw [if_pos h]
    constructor
    · intro hx
      exact absurd hx (Bool.false_ne_true)
    · intro hconj
      exact absurd hconj (by omega)
  · rw [if_neg h]
    constructor
    · intro hx
      omega
    · intro hx
      rfl

/-- C10: `clean_directions` applies `is_valid` element-wise: the result equals
the map of `is_valid` over the input, has the same length, and its `i`-th
entry is `is_valid` of the `i`-th input; being a pure function of a read-only
`Map`, it mutates nothing.  The three vectors of `MapTest.test_directions`
are checked explicitly. -/
theorem clean_directions_elementwise :
    (∀ (m : Map) (ps : List (Int × Int)),
        m.clean_directions ps = ps.map m.is_valid
        ∧ (m.clean_directions ps).length = ps.length
        ∧ ∀ i : Nat, (m.clean_directions ps)[i]? = ps[i]?.map m.is_valid)
    ∧ testMap.clean_directions [(0, 0), (28, 300), (30, 29)]
        = [false, false, false]
    ∧ testMap.clean_directions [(800, 534), (770, 300), (50, 505)]
        = [false, false, false]
    ∧ testMap.clean_directions [(30, 30), (600, 504), (500, 500)]
        = [true, true, true] := by
  refine ⟨?_, by decide, by decide, by decide⟩
  intro m ps
  have hmap : m.clean_directions ps = ps.map m.is_valid := by
    induction ps with
    | nil => rfl
    | cons p ps ih => rw [Map.clean_directions, List.map_cons, ih]
  refine ⟨hmap, by rw [hmap, List.length_map], ?_⟩
  intro i
  rw [hmap, List.getElem?_map]

/-- Digit characters decode back to their digit values. -/
theorem digitVal_encode : ∀ d < 10, digitVal (Char.ofNat (d + 48)) = some d := by
  decide

/-- No digit character is the minus sign. -/
theorem digit_ne_minus : ∀ d < 10, Char.ofNat (d + 48) ≠ Char.ofNat 45 := by
  decide

/-- Parsing an encoded digit list digit-wise recovers the digits. -/
theorem optMap_digitVal (L : List Nat) (h : ∀ d ∈ L, d < 10) :
    optMapList digitVal (L.map (fun d => Char.ofNat (d + 48))) = some L := by
  induction L with
  | nil => rfl
  | cons d L ih =>
    rw [List.map_cons, optMapList,
      digitVal_encode d (h d (List.mem_cons_self d L)),
      ih (fun x hx => h x (List.mem_cons_of_mem d hx))]

/-- Digit-wise parse of the decimal rendering gives the reversed digits. -/
theorem optMap_natDigitChars (n : Nat) :
    optMapList digitVal (natDigitChars n)
      = some ((Nat.digits 10 n).reverse) := by
  rw [natDigitChars, ← List.map_reverse]
  exact optMap_digitVal _
    (fun d hd => Nat.digits_lt_base (by omega) (List.mem_reverse.mp hd))

/-- The decimal rendering of a nonzero natural is nonempty. -/
theorem natDigitChars_ne_nil (n : Nat) (h : n ≠ 0) : natDigitChars n ≠ [] := by
  rw [natDigitChars]
  simp only [ne_eq, List.reverse_eq_nil_iff, List.map_eq_nil_iff]
  exact Nat.digits_ne_nil_iff_ne_zero.mpr h

/-- Parsing the decimal rendering of a natural number recovers it. -/
theorem parseNat_natChars (n : Nat) : parseNatChars (natChars n) = some n := by
  by_cases h0 : n = 0
  · subst h0
    decide
  · rw [natChars, if_neg h0]
    cases hcs : natDigitChars n with
    | nil => exact absurd hcs (natDigitChars_ne_nil n h0)
    | cons c cs2 =>
      show ((optMapList digitVal (c :: cs2)).map
        (fun ds => Nat.ofDigits 10 ds.reverse)) = some n
      rw [← hcs, optMap_natDigitChars]
      simp [Nat.ofDigits_digits]

/-- The decimal rendering of a natural never starts with a minus sign. -/
theorem natChars_head_ne_minus (n : Nat) :
    (natChars n).head? ≠ some (Char.ofNat 45) := by
  by_cases h0 : n = 0
  · subst h0
    decide
  · rw [natChars, if_neg h0]
    cases hd : (Nat.digits 10 n).reverse with
    | nil =>
      exact absurd (List.reverse_eq_nil_iff.mp hd)
        (Nat.digits_ne_nil_iff_ne_zero.mpr h0)
    | cons d ds =>
      have hform : natDigitChars n
          = Char.ofNat (d + 48) :: ds.map (fun x => Char.ofNat (x + 48)) := by
        rw [natDigitChars, ← List.map_reverse, hd, List.map_cons]
      have hmem : d ∈ (Nat.digits 10 n).reverse := by
        rw [hd]
        exact List.mem_cons_self d ds
      rw [hform]
      simp only [List.head?_cons, ne_eq, Option.some.injEq]
      exact digit_ne_minus d
        (Nat.digits_lt_base (by omega) (List.mem_reverse.mp hmem))

/-- Parsing the decimal rendering of an integer recovers it. -/
theorem parseInt_intChars (i : Int) : parseIntChars (intChars i) = some i := by
  by_cases hneg : i < 0
  · rw [intChars, if_pos hneg]
    unfold parseIntChars
    have hc : (Char.ofNat 45 :: natChars i.natAbs).head?
        = some (Char.ofNat 45) := rfl
    rw [if_pos hc, List.tail_cons, parseNat_natChars, Option.map_some']
    have h2 : -((i.natAbs : Int)) = i := by omega
    rw [h2]
  · rw [intChars, if_neg hneg]
    unfold parseIntChars
    rw [if_neg (natChars_head_ne_minus i.natAbs), parseNat_natChars,
      Option.map_some']
    have h2 : ((i.natAbs : Int)) = i := by omega
    rw [h2]

/-- Decoding the encoded data rows recovers the coordinates row by row. -/
theorem optMap_parse_rows (history : List (Int × Int)) :
    optMapList (fun row => optMapList parseIntChars row)
        (history.map (fun p => [intChars p.1, intChars p.2]))
      = some (history.map (fun p => [p.1, p.2])) := by
  induction history with
  | nil => rfl
  | cons p ps ih =>
    rw [List.map_cons, optMapList]
    have hrow : optMapList parseIntChars [intChars p.1, intChars p.2]
        = some [p.1, p.2] := by
      rw [optMapList, parseInt_intChars, optMapList, parseInt_intChars,
        optMapList]
    rw [hrow, ih]
    rfl

/-- C2: exporting a history with `save_agent_data` (save=True) writes a
tabular record whose first row is the header with fields `x` and `y` and
which carries one data row per history entry in history order, and
`load_agent_data` applied to the produced record returns exactly the original
integer coordinate pairs, header row excluded: a round-trip identity. -/
theorem save_load_round_trip (history : List (Int × Int)) :
    (save_agent_rows history).head?
        = some [[Char.ofNat 120], [Char.ofNat 121]]
    ∧ (save_agent_rows history).length = history.length + 1
    ∧ load_agent_rows (save_agent_rows history)
        = some (history.map (fun p => [p.1, p.2])) := by
  refine ⟨rfl, by simp [save_agent_rows], ?_⟩
  rw [load_agent_rows, save_agent_rows]
  exact optMap_parse_rows history

/-- Unfolding of the per-agent loop by one iteration. -/
theorem agentLoop_succ (f : σ → Except ε σ) (i n : Nat) (s : σ) :
    agentLoop f i (n + 1) s
      = match f s with
        | Except.error e => ([], Except.error (i, e))
        | Except.ok s2 =>
          (i :: (agentLoop f (i + 1) n s2).1, (agentLoop f (i + 1) n s2).2) :=
  rfl

/-- A complete agent run steps exactly iterations `i, i+1, …, i+n-1`,
in order. -/
theorem agentLoop_ok_trace (f : σ → Except ε σ) :
    ∀ (n i : Nat) (s s2 : σ), (agentLoop f i n s).2 = Except.ok s2 →
      (agentLoop f i n s).1 = List.range' i n := by
  intro n
  induction n with
  | zero => intro i s s2 h; rfl
  | succ n ih =>
    intro i s s2 h
    cases hf : f s with
    | error e =>
      rw [agentLoop_succ, hf] at h
      exact absurd h (by simp)
    | ok s3 =>
      simp only [agentLoop_succ, hf] at h ⊢
      rw [List.range'_succ]
      exact congrArg (List.cons i) (ih (i + 1) s3 s2 h)

/-- An agent run that raises at iteration `j` has completed exactly
iterations `i, …, j-1`, with `j` within the allotment. -/
theorem agentLoop_error_trace (f : σ → Except ε σ) :
    ∀ (n i : Nat) (s : σ) (j : Nat) (e : ε),
      (agentLoop f i n s).2 = Except.error (j, e) →
      i ≤ j ∧ j < i + n ∧ (agentLoop f i n s).1 = List.range' i (j - i) := by
  intro n
  induction n with
  | zero =>
    intro i s j e h
    exact absurd h (by simp [agentLoop])
  | succ n ih =>
    intro i s j e h
    cases hf : f s with
    | error e2 =>
      simp only [agentLoop_succ, hf, Except.error.injEq, Prod.mk.injEq] at h ⊢
      obtain ⟨hji, he⟩ := h
      subst hji
      exact ⟨le_refl i, by omega, by simp⟩
    | ok s3 =>
      simp only [agentLoop_succ, hf] at h ⊢
      obtain ⟨h1, h2, h3⟩ := ih (i + 1) s3 j e h
      refine ⟨by omega, by omega, ?_⟩
      rw [h3]
      have hji : j - i = (j - (i + 1)) + 1 := by omega
      rw [hji, List.range'_succ]

/-- Unfolding of the experiment loop by one agent. -/
theorem expLoop_cons (iters : Nat) (a : MAgent σ ε)
    (rest : List (MAgent σ ε)) (idx : Nat) :
    expLoop iters (a :: rest) idx
      = match agentLoop a.stepf 0 iters a.state with
        | (tr, Except.error ie) =>
          ⟨tr.map (fun j => (idx, j)), some (ie.1, idx, ie.2), false, false⟩
        | (tr, Except.ok _) =>
          ⟨tr.map (fun j => (idx, j)) ++ (expLoop iters rest (idx + 1)).trace,
            (expLoop iters rest (idx + 1)).failure,
            (expLoop iters rest (idx + 1)).plotsInvoked,
            (expLoop iters rest (idx + 1)).saveInvoked⟩ :=
  rfl

/-- A run in which no step raises walks the agents strictly one after the
other, each completing its full allotment before the next begins. -/
theorem expLoop_ok_trace {σ ε : Type} (iters : Nat) :
    ∀ (agents : List (MAgent σ ε)) (idx : Nat),
      (expLoop iters agents idx).failure = none →
      (expLoop iters agents idx).trace = fullTrace iters agents.length idx := by
  intro agents
  induction agents with
  | nil => intro idx h; rfl
  | cons a rest ih =>
    intro idx h
    rcases hr : agentLoop a.stepf 0 iters a.state with ⟨tr, res⟩
    cases res with
    | error ie =>
      rw [expLoop_cons, hr] at h
      exact absurd h (by simp)
    | ok s2 =>
      simp only [expLoop_cons, hr] at h ⊢
      have htr : tr = List.range' 0 iters := by
        have h5 := agentLoop_ok_trace a.stepf iters 0 a.state s2 (by rw [hr])
        rw [hr] at h5
        exact h5
      rw [List.length_cons, fullTrace, ih (idx + 1) h, htr,
        List.range_eq_range']

/-- A run in which some step raises reports the first failure, stops at
once, skips plotting and saving, and its trace is the full blocks of the
agents before the failing one followed by that agent's completed steps. -/
theorem expLoop_error_shape {σ ε : Type} (iters : Nat) :
    ∀ (agents : List (MAgent σ ε)) (idx i a : Nat) (e : ε),
      (expLoop iters agents idx).failure = some (i, a, e) →
      (expLoop iters agents idx).plotsInvoked = false
      ∧ (expLoop iters agents idx).saveInvoked = false
      ∧ idx ≤ a ∧ a - idx < agents.length ∧ i < iters
      ∧ (expLoop iters agents idx).trace
          = fullTrace iters (a - idx) idx
            ++ (List.range i).map (fun j => (a, j)) := by
  intro agents
  induction agents with
  | nil =>
    intro idx i a e h
    exact absurd h (by simp [expLoop])
  | cons ag rest ih =>
    intro idx i a e h
    rcases hr : agentLoop ag.stepf 0 iters ag.state with ⟨tr, res⟩
    cases res with
    | error ie =>
      rcases ie with ⟨j, e2⟩
      obtain ⟨h0j, hjn, htr⟩ :=
        agentLoop_error_trace ag.stepf iters 0 ag.state j e2 (by rw [hr])
      rw [hr] at htr
      have htr3 : tr = List.range' 0 (j - 0) := htr
      simp only [expLoop_cons, hr, Option.some.injEq, Prod.mk.injEq] at h ⊢
      obtain ⟨hji, hia, he⟩ := h
      subst hji
      subst hia
      refine ⟨trivial, trivial, le_refl idx, by simp, by omega, ?_⟩
      rw [htr3]
      simp [Nat.sub_self, fullTrace, List.range_eq_range']
    | ok s2 =>
      simp only [expLoop_cons, hr] at h ⊢
      obtain ⟨hp, hs, hia, hlen, hin, htr2⟩ := ih (idx + 1) i a e h
      have htr : tr = List.range' 0 iters := by
        have h5 := agentLoop_ok_trace ag.stepf iters 0 ag.state s2 (by rw [hr])
        rw [hr] at h5
        exact h5
      refine ⟨hp, hs, by omega, by simp [List.length_cons]; omega,
        hin, ?_⟩
      have hsub : a - idx = (a - (idx + 1)) + 1 := by omega
      rw [hsub, fullTrace, htr2, htr, List.range_eq_range',
        List.append_assoc, List.range_eq_range']

/-- Counterexample to C1 as stated: in a run of one agent whose first step
raises, the failure is reported as step 0 of agent 0, yet neither
`plot_paths` nor `save_agent_data` is invoked — `run_experiment` returns from
inside the loop (engine.py line 175), skipping both calls. -/
theorem run_failure_plots_counterexample :
    (expLoop 1 [failingAgent] 0).failure = some (0, 0, ())
    ∧ (expLoop 1 [failingAgent] 0).plotsInvoked = false
    ∧ (expLoop 1 [failingAgent] 0).saveInvoked = false :=
  ⟨rfl, rfl, rfl⟩

/-- C1 (amended): in every run in which some agent's step raises at iteration
`i`, the run reports that step index and agent and stops all stepping
immediately: agents earlier in the list have already completed every
iteration and keep their full traces, the failing agent stopped right at step
`i`, no later agent steps, and — against the original claim — `plot_paths`
and `save_agent_data` are not invoked, because `run_experiment` returns
early. -/
theorem run_failure_aborts {σ ε : Type} (agents : List (MAgent σ ε))
    (iters i a : Nat) (e : ε)
    (hfail : (expLoop iters agents 0).failure = some (i, a, e)) :
    (expLoop iters agents 0).plotsInvoked = false
    ∧ (expLoop iters agents 0).saveInvoked = false
    ∧ a < agents.length ∧ i < iters
    ∧ (expLoop iters agents 0).trace
        = fullTrace iters a 0 ++ (List.range i).map (fun j => (a, j)) := by
  obtain ⟨hp, hs, h1, h2, h3, h4⟩ :=
    expLoop_error_shape iters agents 0 i a e hfail
  rw [Nat.sub_zero] at h2 h4
  exact ⟨hp, hs, h2, h3, h4⟩

/-- Witness for the amended C1: two agents of which the second raises at its
second step; the first agent's two steps are in the trace, the failure names
step 1 of agent 1, and plotting and export are skipped. -/
theorem run_failure_aborts_witness :
    (expLoop 2 mixedAgents 0).failure = some (1, 1, 7)
    ∧ ((expLoop 2 mixedAgents 0).plotsInvoked = false
      ∧ (expLoop 2 mixedAgents 0).saveInvoked = false
      ∧ 1 < mixedAgents.length ∧ 1 < 2
      ∧ (expLoop 2 mixedAgents 0).trace
          = fullTrace 2 1 0 ++ (List.range 1).map (fun j => (1, j))) :=
  ⟨by decide, run_failure_aborts mixedAgents 2 1 1 7 (by decide)⟩

/-- C5: `run_experiment` steps agents strictly sequentially: in every run
whose steps all succeed (no failure is recorded), the step trace is exactly
agent 0's iterations `0..N-1`, then agent 1's, and so on — each agent
completes all `N` of its `step()` calls before the next agent in the list
performs any step, with no interleaving. -/
theorem run_experiment_sequential {σ ε : Type} (agents : List (MAgent σ ε))
    (iters : Nat) (hok : (expLoop iters agents 0).failure = none) :
    (expLoop iters agents 0).trace = fullTrace iters agents.length 0 :=
  expLoop_ok_trace iters agents 0 hok

/-- Witness for C5: two always-succeeding agents for two iterations step in
the strict order (0,0), (0,1), (1,0), (1,1). -/
theorem run_experiment_sequential_witness :
    (expLoop 2 steadyAgents 0).failure = none
    ∧ (expLoop 2 steadyAgents 0).trace = fullTrace 2 steadyAgents.length 0 :=
  ⟨by decide, run_experiment_sequential steadyAgents 2 (by decide)⟩

/-- C6: `run_experiment` asserts its preconditions at entry: the call clears
the two assertions (engine.py lines 153-154) precisely when the motivation
and position lists have equal length and either both saving options are off
or a destination directory is provided; in any other case an assertion
error is raised, and under the preconditions no assertion fires. -/
theorem run_experiment_asserts {μ ρ σ ε : Type} (motivation_lst : List μ)
    (position_lst : List ρ) (mkAgent : μ → ρ → MAgent σ ε)
    (iterations : Nat) (saveGraph saveLocation : Bool)
    (dirname : Option String) :
    (run_experiment motivation_lst position_lst mkAgent iterations saveGraph
        saveLocation dirname).isOk = true
      ↔ (motivation_lst.length = position_lst.length
        ∧ ((saveGraph = false ∧ saveLocation = false)
            ∨ dirname.isSome = true)) := by
  unfold run_experiment
  by_cases h1 : motivation_lst.length = position_lst.length
  · rw [if_pos h1]
    by_cases h2 : (saveGraph = false ∧ saveLocation = false)
        ∨ dirname.isSome = true
    · rw [if_pos h2]
      constructor
      · intro hx
        exact ⟨h1, h2⟩
      · intro hx
        rfl
    · rw [if_neg h2]
      constructor
      · intro hx
        exact absurd hx Bool.false_ne_true
      · intro hx
        exact absurd hx.2 h2
  · rw [if_neg h1]
    constructor
    · intro hx
      exact absurd hx Bool.false_ne_true
    · intro hx
      exact absurd hx.1 h1

end AC
